import Mathlib

/-!
Shallow embedding of the `exists_map` crate (src/src/lib.rs).

The crate provides `ExistsMap<K, V>`: a map that never stores its keys,
only their 64-bit `ahash` digests, wrapped in the surrogate type
`ExistsItem<K>` (a `u64` plus a `PhantomData<K>` tag).

Modelling choices:
* A Rust `Hash` implementation is modelled as the stream of words it
  writes into the `Hasher`; we record that stream as a `List Nat`
  (class `RustHash`, field `write`).
* `ahash::RandomState` is modelled abstractly as a function from the
  written stream to the 64-bit digest (`HashState`); `hash_one` feeds
  the key's written stream to the state.  The digests it returns are
  the `u64` outputs; no arithmetic is ever performed on them, only
  equality tests, so they are plain naturals here.
* `std::collections::HashMap<ExistsItem<K>, V>` is modelled as an
  association list whose lookups compare keys with `ExistsItem`'s
  `PartialEq` implementation (digest equality).  A real `HashMap`
  never holds two equal keys; that invariant is `TableWF` below and
  is carried as a hypothesis where a theorem needs it.
-/

set_option autoImplicit false

/-- Model of `ahash::RandomState`: the keyed hash function it denotes,
from the stream of words a `Hash` impl writes to the 64-bit digest. -/
abbrev HashState : Type := List Nat → Nat

/-- Model of the `std::hash::Hash` trait: `write k` is the stream of words
the impl of `Hash` for `K` writes into the `Hasher` for the value `k`. -/
class RustHash (K : Type) where
  write : K → List Nat

/-- Model of `std::borrow::Borrow<Q> for K`. -/
class RustBorrow (K : Type) (Q : Type) where
  borrow : K → Q

/-- The blanket `impl<T> Borrow<T> for T` from the Rust standard library. -/
instance (K : Type) : RustBorrow K K := ⟨id⟩

/-- Model of `RandomState::hash_one`: hash the stream written by `k`'s
`Hash` impl with the keyed state. -/
def hashOne {K : Type} [RustHash K] (state : HashState) (k : K) : Nat :=
  state (RustHash.write k)

/-- `struct ExistsItem<K> { hashed_key: u64, _marker: PhantomData<K> }`.
The phantom marker is zero-sized; it survives only as the type
parameter `K`, exactly as in the source. -/
structure ExistsItem (K : Type) where
  hashed_key : Nat
deriving DecidableEq, Repr

/-- `ExistsItem::new(key, state)`: wrap `state.hash_one(key)`. -/
def ExistsItem.new {K : Type} [RustHash K] (key : K) (state : HashState) :
    ExistsItem K :=
  { hashed_key := hashOne state key }

/-- `impl<K> From<u64> for ExistsItem<K>`. -/
def ExistsItem.fromU64 {K : Type} (hashed_key : Nat) : ExistsItem K :=
  { hashed_key := hashed_key }

/-- `impl<K> PartialEq for ExistsItem<K>`: equality compares only the
`hashed_key` field. -/
def ExistsItem.eqImpl {K : Type} (a b : ExistsItem K) : Bool :=
  a.hashed_key == b.hashed_key

/-- `impl<K> Hash for ExistsItem<K>`: `self.hashed_key.hash(state)`, i.e.
the `u64` `Hash` impl, which calls `Hasher::write_u64` with the digest.
The outer hasher is modelled generically by its state type `σ` and its
`write_u64` operation. -/
def ExistsItem.hashImpl {K σ : Type} (write_u64 : Nat → σ → σ)
    (item : ExistsItem K) (hasher : σ) : σ :=
  write_u64 item.hashed_key hasher

/-- The underlying `std::collections::HashMap<ExistsItem<K>, V>`,
modelled as an association list. -/
abbrev Table (K V : Type) : Type :=
  List (ExistsItem K × V)

/-- `HashMap::get`: the value of the first (in a real `HashMap`: only)
entry whose key equals the probe under `ExistsItem`'s `PartialEq`. -/
def tableGet {K V : Type} (m : Table K V) (k : ExistsItem K) :
    Option V :=
  match m with
  | [] => none
  | (k', v) :: rest => if ExistsItem.eqImpl k' k then some v else tableGet rest k

/-- `HashMap::insert`: replace the value of the entry with an equal key
(keeping the stored key, as `HashMap` does) and return the old value,
or append a fresh entry and return `None`. -/
def tableInsert {K V : Type} (m : Table K V) (k : ExistsItem K)
    (v : V) : Option V × Table K V :=
  match m with
  | [] => (none, [(k, v)])
  | (k', v') :: rest =>
      if ExistsItem.eqImpl k' k then (some v', (k', v) :: rest)
      else
        let r := tableInsert rest k v
        (r.1, (k', v') :: r.2)

/-- `HashMap::remove`: drop the entry with an equal key and return its
value, or return `None`. -/
def tableRemove {K V : Type} (m : Table K V) (k : ExistsItem K) :
    Option V × Table K V :=
  match m with
  | [] => (none, [])
  | (k', v') :: rest =>
      if ExistsItem.eqImpl k' k then (some v', rest)
      else
        let r := tableRemove rest k
        (r.1, (k', v') :: r.2)

/-- `HashMap::contains_key`: an entry with an equal key exists. -/
def tableContains {K V : Type} (m : Table K V)
    (k : ExistsItem K) : Bool :=
  (tableGet m k).isSome

/-- A real `HashMap` never holds two keys that compare equal: all stored
digests are distinct. -/
abbrev TableWF {K V : Type} (m : Table K V) : Prop :=
  (m.map fun e => e.1.hashed_key).Nodup

/-- `pub struct ExistsMap<K, V> { state: ahash::RandomState,
map: HashMap<ExistsItem<K>, V> }`. -/
structure ExistsMap (K V : Type) where
  state : HashState
  map : Table K V

/-- An `ExistsMap` as freshly constructed: some hash state (however
seeded) and an empty table. -/
def ExistsMap.fresh {K V : Type} (state : HashState) :
    ExistsMap K V :=
  { state := state, map := [] }

/-- `ExistsMap::insert(key, value)`: hash the key into an `ExistsItem`
and insert into the table; returns the evicted value, if any, together
with the updated map (the Rust method mutates `self`). -/
def ExistsMap.insert {K V : Type} [RustHash K]
    (m : ExistsMap K V) (key : K) (value : V) : Option V × ExistsMap K V :=
  let item := ExistsItem.new key m.state
  let r := tableInsert m.map item value
  (r.1, { m with map := r.2 })

/-- `ExistsMap::get(key)`: hash the key the same way insert does and look
up by digest. -/
def ExistsMap.get {K V : Type} [RustHash K]
    (m : ExistsMap K V) (key : K) : Option V :=
  let item := ExistsItem.new key m.state
  tableGet m.map item

/-- `ExistsMap::contains<Q>(key)` where `K: Borrow<Q>`: hash the borrowed
form directly, wrap with `From<u64>`, test membership. -/
def ExistsMap.contains {K Q V : Type} [RustHash Q]
    [RustBorrow K Q] (m : ExistsMap K V) (key : Q) : Bool :=
  let k := hashOne m.state key
  let item : ExistsItem K := ExistsItem.fromU64 k
  tableContains m.map item

/-- `ExistsMap::remove<Q>(key)` where `K: Borrow<Q>`: hash the borrowed
form, wrap with `From<u64>`, remove by digest; returns the removed
value, if any, together with the updated map. -/
def ExistsMap.remove {K Q V : Type} [RustHash Q]
    [RustBorrow K Q] (m : ExistsMap K V) (key : Q) : Option V × ExistsMap K V :=
  let k := hashOne m.state key
  let item : ExistsItem K := ExistsItem.fromU64 k
  let r := tableRemove m.map item
  (r.1, { m with map := r.2 })

/-- Insert a list of pairs in order (as the tests' insertion loops do). -/
def ExistsMap.insertAll {K V : Type} [RustHash K]
    (m : ExistsMap K V) (pairs : List (K × V)) : ExistsMap K V :=
  pairs.foldl (fun acc p => (acc.insert p.1 p.2).2) m

/-- A single mutating operation on the map, for describing reachable
states: `insert` or `remove` (the latter with the owned key form). -/
inductive Op (K V : Type) where
  | insert (key : K) (value : V)
  | remove (key : K)

/-- Apply one operation, discarding the returned value. -/
def ExistsMap.applyOp {K V : Type} [RustHash K]
    (m : ExistsMap K V) : Op K V → ExistsMap K V
  | .insert k v => (m.insert k v).2
  | .remove k => (m.remove k).2

/-- Run a sequence of operations left to right. -/
def ExistsMap.runOps {K V : Type} [RustHash K]
    (m : ExistsMap K V) (ops : List (Op K V)) : ExistsMap K V :=
  ops.foldl ExistsMap.applyOp m

/-- Model of Rust `&str`: the text content as its UTF-8 bytes. -/
structure RStr where
  bytes : List Nat
deriving DecidableEq, Repr

/-- Model of Rust `String`: the owned text, same byte content. -/
structure RString where
  bytes : List Nat
deriving DecidableEq, Repr

/-- `impl Hash for str`: write the UTF-8 bytes followed by the `0xff`
length-prefix-free terminator. -/
instance : RustHash RStr := ⟨fun s => s.bytes ++ [0xff]⟩

/-- `impl Hash for String`: delegates to the `str` impl on the same
text, so it writes exactly the same stream. -/
instance : RustHash RString := ⟨fun s => s.bytes ++ [0xff]⟩

/-- `impl Borrow<str> for String`. -/
instance : RustBorrow RString RStr := ⟨fun s => ⟨s.bytes⟩⟩

/-- The `str` slice of an owned `String`: same text. -/
def RString.asStr (s : RString) : RStr := ⟨s.bytes⟩

/-- A concrete key type for witnesses: `u64` keys, whose `Hash` impl
writes the value itself (one `write_u64` call). -/
instance : RustHash Nat := ⟨fun n => [n % 2 ^ 64]⟩

/-! ### Lemmas about the underlying table -/

theorem eqImpl_iff {K : Type} (a b : ExistsItem K) :
    ExistsItem.eqImpl a b = true ↔ a.hashed_key = b.hashed_key := by
  simp [ExistsItem.eqImpl]

theorem tableInsert_fst {K V : Type} (m : Table K V) (k : ExistsItem K) (v : V) :
    (tableInsert m k v).1 = tableGet m k := by
  induction m with
  | nil => rfl
  | cons e rest ih =>
      obtain ⟨k', v'⟩ := e
      simp only [tableInsert, tableGet]
      split <;> simp [ih]

theorem tableGet_insert_self {K V : Type} (m : Table K V) (k k' : ExistsItem K)
    (v : V) (h : k'.hashed_key = k.hashed_key) :
    tableGet (tableInsert m k v).2 k' = some v := by
  induction m with
  | nil =>
      simp [tableInsert, tableGet, eqImpl_iff, h]
  | cons e rest ih =>
      obtain ⟨k₀, v₀⟩ := e
      simp only [tableInsert]
      by_cases h₀ : ExistsItem.eqImpl k₀ k
      · have : k₀.hashed_key = k'.hashed_key := by
          rw [(eqImpl_iff k₀ k).mp h₀, h]
        simp [h₀, tableGet, eqImpl_iff, this]
      · have : ¬ k₀.hashed_key = k'.hashed_key := by
          intro hc
          exact h₀ ((eqImpl_iff k₀ k).mpr (hc.trans h))
        simp [h₀, tableGet, eqImpl_iff, this, ih]

theorem tableGet_insert_ne {K V : Type} (m : Table K V) (k k' : ExistsItem K)
    (v : V) (h : k'.hashed_key ≠ k.hashed_key) :
    tableGet (tableInsert m k v).2 k' = tableGet m k' := by
  induction m with
  | nil =>
      have : ¬ k.hashed_key = k'.hashed_key := fun hc => h hc.symm
      simp [tableInsert, tableGet, eqImpl_iff, this]
  | cons e rest ih =>
      obtain ⟨k₀, v₀⟩ := e
      simp only [tableInsert]
      by_cases h₀ : ExistsItem.eqImpl k₀ k
      · have : ¬ k₀.hashed_key = k'.hashed_key := by
          intro hc
          exact h (hc.symm.trans ((eqImpl_iff k₀ k).mp h₀))
        simp [h₀, tableGet, eqImpl_iff, this]
      · simp only [h₀, if_false, tableGet]
        split <;> simp [ih]

theorem tableRemove_fst {K V : Type} (m : Table K V) (k : ExistsItem K) :
    (tableRemove m k).1 = tableGet m k := by
  induction m with
  | nil => rfl
  | cons e rest ih =>
      obtain ⟨k', v'⟩ := e
      simp only [tableRemove, tableGet]
      split <;> simp [ih]

theorem tableGet_eq_none_of_forall {K V : Type} (m : Table K V)
    (k : ExistsItem K) (h : ∀ e ∈ m, e.1.hashed_key ≠ k.hashed_key) :
    tableGet m k = none := by
  induction m with
  | nil => rfl
  | cons e rest ih =>
      obtain ⟨k₀, v₀⟩ := e
      have h₀ : k₀.hashed_key ≠ k.hashed_key := h (k₀, v₀) (List.mem_cons_self _ _)
      have : ¬ ExistsItem.eqImpl k₀ k = true := by
        simp [eqImpl_iff, h₀]
      simp only [tableGet, this, if_false]
      exact ih fun e he => h e (List.mem_cons_of_mem _ he)

theorem tableGet_remove_self {K V : Type} (m : Table K V) (k k' : ExistsItem K)
    (hwf : TableWF m) (h : k'.hashed_key = k.hashed_key) :
    tableGet (tableRemove m k).2 k' = none := by
  induction m with
  | nil => rfl
  | cons e rest ih =>
      obtain ⟨k₀, v₀⟩ := e
      have hwf' : k₀.hashed_key ∉ rest.map (fun e => e.1.hashed_key) ∧
          TableWF rest := by
        simpa [TableWF, List.nodup_cons] using hwf
      simp only [tableRemove]
      by_cases h₀ : ExistsItem.eqImpl k₀ k
      · simp only [h₀, if_true]
        refine tableGet_eq_none_of_forall rest k' fun e he => ?_
        intro hc
        exact hwf'.1 (by
          rw [List.mem_map]
          exact ⟨e, he, hc.trans (h.trans ((eqImpl_iff k₀ k).mp h₀).symm)⟩)
      · have : ¬ k₀.hashed_key = k'.hashed_key := by
          intro hc
          exact h₀ ((eqImpl_iff k₀ k).mpr (hc.trans h))
        simp [h₀, tableGet, eqImpl_iff, this, ih hwf'.2]

theorem tableGet_remove_ne {K V : Type} (m : Table K V) (k k' : ExistsItem K)
    (h : k'.hashed_key ≠ k.hashed_key) :
    tableGet (tableRemove m k).2 k' = tableGet m k' := by
  induction m with
  | nil => rfl
  | cons e rest ih =>
      obtain ⟨k₀, v₀⟩ := e
      simp only [tableRemove]
      by_cases h₀ : ExistsItem.eqImpl k₀ k
      · have : ¬ k₀.hashed_key = k'.hashed_key := by
          intro hc
          exact h (hc.symm.trans ((eqImpl_iff k₀ k).mp h₀))
        simp [h₀, tableGet, eqImpl_iff, this]
      · simp only [h₀, if_false, tableGet]
        split <;> simp [ih]

theorem mem_tableInsert {K V : Type} (m : Table K V) (k : ExistsItem K) (v : V)
    (e : ExistsItem K × V) (he : e ∈ (tableInsert m k v).2) :
    e ∈ m ∨ (e.1.hashed_key = k.hashed_key ∧ e.2 = v) := by
  induction m with
  | nil =>
      simp only [tableInsert, List.mem_singleton] at he
      exact Or.inr (by simp [he])
  | cons e₀ rest ih =>
      obtain ⟨k₀, v₀⟩ := e₀
      simp only [tableInsert] at he
      by_cases h₀ : ExistsItem.eqImpl k₀ k
      · simp only [h₀, if_true, List.mem_cons] at he
        rcases he with he | he
        · exact Or.inr (by simp [he, (eqImpl_iff k₀ k).mp h₀])
        · exact Or.inl (List.mem_cons_of_mem _ he)
      · simp only [h₀, Bool.false_eq_true, if_false, List.mem_cons] at he
        rcases he with he | he
        · exact Or.inl (by simp [he])
        · rcases ih he with h | h
          · exact Or.inl (List.mem_cons_of_mem _ h)
          · exact Or.inr h

theorem mem_tableRemove {K V : Type} (m : Table K V) (k : ExistsItem K)
    (e : ExistsItem K × V) (he : e ∈ (tableRemove m k).2) : e ∈ m := by
  induction m with
  | nil => simp [tableRemove] at he
  | cons e₀ rest ih =>
      obtain ⟨k₀, v₀⟩ := e₀
      simp only [tableRemove] at he
      by_cases h₀ : ExistsItem.eqImpl k₀ k
      · simp only [h₀, if_true] at he
        exact List.mem_cons_of_mem _ he
      · simp only [h₀, Bool.false_eq_true, if_false, List.mem_cons] at he
        rcases he with he | he
        · exact List.mem_cons.mpr (Or.inl he)
        · exact List.mem_cons_of_mem _ (ih he)

theorem tableWF_insert {K V : Type} (m : Table K V) (k : ExistsItem K) (v : V)
    (hwf : TableWF m) : TableWF (tableInsert m k v).2 := by
  induction m with
  | nil => simp [tableInsert, TableWF]
  | cons e₀ rest ih =>
      obtain ⟨k₀, v₀⟩ := e₀
      have hwf' : k₀.hashed_key ∉ rest.map (fun e => e.1.hashed_key) ∧
          TableWF rest := by
        simpa [TableWF, List.nodup_cons] using hwf
      simp only [tableInsert]
      by_cases h₀ : ExistsItem.eqImpl k₀ k
      · simp only [h₀, if_true]
        simpa [TableWF, List.nodup_cons] using hwf'
      · simp only [h₀, Bool.false_eq_true, if_false]
        rw [TableWF, List.map_cons, List.nodup_cons]
        refine ⟨?_, ih hwf'.2⟩
        intro hc
        rw [List.mem_map] at hc
        obtain ⟨e, he, hd⟩ := hc
        rcases mem_tableInsert rest k v e he with h | h
        · exact hwf'.1 (List.mem_map.mpr ⟨e, h, hd⟩)
        · exact h₀ ((eqImpl_iff k₀ k).mpr (hd.symm.trans h.1))

theorem tableWF_remove {K V : Type} (m : Table K V) (k : ExistsItem K)
    (hwf : TableWF m) : TableWF (tableRemove m k).2 := by
  induction m with
  | nil => simp [tableRemove, TableWF]
  | cons e₀ rest ih =>
      obtain ⟨k₀, v₀⟩ := e₀
      have hwf' : k₀.hashed_key ∉ rest.map (fun e => e.1.hashed_key) ∧
          TableWF rest := by
        simpa [TableWF, List.nodup_cons] using hwf
      simp only [tableRemove]
      by_cases h₀ : ExistsItem.eqImpl k₀ k
      · simp only [h₀, if_true]
        exact hwf'.2
      · simp only [h₀, Bool.false_eq_true, if_false]
        rw [TableWF, List.map_cons, List.nodup_cons]
        refine ⟨?_, ih hwf'.2⟩
        intro hc
        rw [List.mem_map] at hc
        obtain ⟨e, he, hd⟩ := hc
        exact hwf'.1 (List.mem_map.mpr ⟨e, mem_tableRemove rest k e he, hd⟩)

/-! ### Lemmas about `ExistsMap` -/

theorem applyOp_state {K V : Type} [RustHash K] (m : ExistsMap K V)
    (op : Op K V) : (m.applyOp op).state = m.state := by
  cases op <;> rfl

theorem runOps_state {K V : Type} [RustHash K] (ops : List (Op K V))
    (m : ExistsMap K V) : (m.runOps ops).state = m.state := by
  induction ops generalizing m with
  | nil => rfl
  | cons op ops ih =>
      show (ExistsMap.runOps (m.applyOp op) ops).state = m.state
      rw [ih, applyOp_state]

theorem insertAll_state {K V : Type} [RustHash K] (pairs : List (K × V))
    (m : ExistsMap K V) : (m.insertAll pairs).state = m.state := by
  induction pairs generalizing m with
  | nil => rfl
  | cons p ps ih =>
      show (ExistsMap.insertAll (m.insert p.1 p.2).2 ps).state = m.state
      rw [ih]
      rfl

theorem get_eq_tableGet {K V : Type} [RustHash K] (m : ExistsMap K V)
    (key : K) : m.get key = tableGet m.map ⟨hashOne m.state key⟩ := rfl

theorem insert_map {K V : Type} [RustHash K] (m : ExistsMap K V) (key : K)
    (value : V) :
    (m.insert key value).2.map = (tableInsert m.map ⟨hashOne m.state key⟩ value).2 := rfl

theorem mem_runOps {K V : Type} [RustHash K] (ops : List (Op K V))
    (m : ExistsMap K V) (e : ExistsItem K × V)
    (he : e ∈ (m.runOps ops).map) :
    e ∈ m.map ∨ ∃ k v, Op.insert k v ∈ ops ∧
      e.1.hashed_key = hashOne m.state k ∧ e.2 = v := by
  induction ops generalizing m with
  | nil => exact Or.inl he
  | cons op ops ih =>
      have he' : e ∈ (ExistsMap.runOps (m.applyOp op) ops).map := he
      rcases ih (m.applyOp op) he' with h | h
      · cases op with
        | insert k v =>
            have hmem : e ∈ (tableInsert m.map ⟨hashOne m.state k⟩ v).2 := h
            rcases mem_tableInsert m.map ⟨hashOne m.state k⟩ v e hmem with h' | h'
            · exact Or.inl h'
            · exact Or.inr ⟨k, v, List.mem_cons_self _ _, h'.1, h'.2⟩
        | remove k =>
            exact Or.inl (mem_tableRemove m.map ⟨hashOne m.state k⟩ e h)
      · obtain ⟨k, v, hk, hd, hv⟩ := h
        rw [applyOp_state] at hd
        exact Or.inr ⟨k, v, List.mem_cons_of_mem _ hk, hd, hv⟩

/-- Two operations are digest-equivalent under a hash state when they are
the same kind of operation, their keys have equal digests, and (for
inserts) their values are equal. -/
def opDigestEq {K V : Type} [RustHash K] (st : HashState) :
    Op K V → Op K V → Prop
  | .insert k v, .insert k' v' => hashOne st k = hashOne st k' ∧ v = v'
  | .remove k, .remove k' => hashOne st k = hashOne st k'
  | _, _ => False

theorem applyOp_congr {K V : Type} [RustHash K] (m : ExistsMap K V)
    (op op' : Op K V) (h : opDigestEq m.state op op') :
    m.applyOp op = m.applyOp op' := by
  cases op with
  | insert k v =>
      cases op' with
      | insert k' v' =>
          obtain ⟨h₁, h₂⟩ := h
          simp only [ExistsMap.applyOp, ExistsMap.insert, ExistsItem.new, h₁, h₂]
      | remove k' => exact absurd h not_false
  | remove k =>
      cases op' with
      | insert k' v' => exact absurd h not_false
      | remove k' =>
          have h₁ : hashOne m.state k = hashOne m.state k' := h
          simp only [ExistsMap.applyOp, ExistsMap.remove, ExistsItem.fromU64, h₁]

theorem runOps_congr {K V : Type} [RustHash K] (st : HashState)
    (ops ops' : List (Op K V)) (h : List.Forall₂ (opDigestEq st) ops ops') :
    ∀ m : ExistsMap K V, m.state = st → m.runOps ops = m.runOps ops' := by
  induction h with
  | nil => intro m _; rfl
  | @cons a b l₁ l₂ h₁ h₂ ih =>
      intro m hm
      have hstep : m.applyOp a = m.applyOp b :=
        applyOp_congr m a b (by rw [hm]; exact h₁)
      show ExistsMap.runOps (m.applyOp a) l₁ = ExistsMap.runOps (m.applyOp b) l₂
      rw [hstep]
      exact ih (m.applyOp b) (by rw [applyOp_state, hm])

/-! ### Concrete hash states for witnesses -/

/-- A concrete hash state that returns the first written word: with the
`Nat` key instance above it gives every small key its own digest. -/
def headState : HashState := fun l => l.headD 0

/-- A concrete hash state on which all keys collide. -/
def constState : HashState := fun _ => 0

/-! ### The claims -/

/-- C2: after `insert(k, v₁)`, a second `insert(k, v₂)` returns
`Some(v₁)` and a subsequent `get(k)` returns `Some(v₂)`; in general
`insert` returns the previous value stored under the key's digest
(which is exactly what `get` would have returned), or `None` if that
digest was absent. -/
theorem insert_overwrite_spec {K V : Type} [RustHash K] (m : ExistsMap K V)
    (k : K) (v₁ v₂ : V) :
    ((m.insert k v₁).2.insert k v₂).1 = some v₁ ∧
    ((m.insert k v₁).2.insert k v₂).2.get k = some v₂ ∧
    ∀ (n : ExistsMap K V) (key : K) (value : V),
      (n.insert key value).1 = n.get key := by
  refine ⟨?_, ?_, ?_⟩
  · have h1 : ((m.insert k v₁).2.insert k v₂).1 =
        tableGet (tableInsert m.map ⟨hashOne m.state k⟩ v₁).2
          ⟨hashOne m.state k⟩ :=
      tableInsert_fst _ _ _
    rw [h1, tableGet_insert_self _ _ _ _ rfl]
  · exact tableGet_insert_self _ _ _ _ rfl
  · intro n key value
    exact tableInsert_fst n.map ⟨hashOne n.state key⟩ value

/-- C4: for a map keyed by the owned text type, `contains` on the owned
value and `contains` on the string slice of the same text agree, and the
hash state assigns both forms the same digest. -/
theorem borrow_consistency {V : Type} (m : ExistsMap RString V) (s : RString) :
    m.contains s = m.contains s.asStr ∧
    hashOne m.state s = hashOne m.state s.asStr := by
  exact ⟨rfl, rfl⟩

/-- C6: for two keys whose digests under the map's hash state are equal,
`insert(k₁, v₁)` then `insert(k₂, v₂)` returns `Some(v₁)` and replaces
the entry, and afterwards `get(k₁)` returns `Some(v₂)` — the most
recently stored value for that digest. -/
theorem collision_overwrite {K V : Type} [RustHash K] (m : ExistsMap K V)
    (k₁ k₂ : K) (v₁ v₂ : V) (hne : k₁ ≠ k₂)
    (hcol : hashOne m.state k₁ = hashOne m.state k₂) :
    ((m.insert k₁ v₁).2.insert k₂ v₂).1 = some v₁ ∧
    ((m.insert k₁ v₁).2.insert k₂ v₂).2.get k₁ = some v₂ := by
  constructor
  · have h1 : ((m.insert k₁ v₁).2.insert k₂ v₂).1 =
        tableGet (tableInsert m.map ⟨hashOne m.state k₁⟩ v₁).2
          ⟨hashOne m.state k₂⟩ :=
      tableInsert_fst _ _ _
    rw [h1]
    exact tableGet_insert_self _ _ _ _ hcol.symm
  · exact tableGet_insert_self _ _ _ _ hcol

/-- Witness for C6: with a constant hash state the keys `0` and `1`
collide, and the second insert evicts and returns the first value. -/
theorem collision_overwrite_witness :
    (0 : Nat) ≠ 1 ∧
    hashOne constState (0 : Nat) = hashOne constState 1 ∧
    ((((ExistsMap.fresh constState : ExistsMap Nat Nat).insert 0 10).2.insert
        1 20).1 = some 10 ∧
      (((ExistsMap.fresh constState : ExistsMap Nat Nat).insert 0 10).2.insert
        1 20).2.get 0 = some 20) :=
  ⟨by decide, rfl,
    collision_overwrite (ExistsMap.fresh constState) 0 1 10 20 (by decide) rfl⟩

/-- C7: two digest surrogates compare equal iff their digest fields are
equal, and the `Hash` impl's contribution to any outer hasher is one
`write_u64` of the digest itself; the phantom type tag `K` contributes
nothing (both facts hold uniformly in `K`). -/
theorem surrogate_eq_hash_spec :
    ∀ (K : Type) (a b : ExistsItem K),
      (ExistsItem.eqImpl a b = true ↔ a.hashed_key = b.hashed_key) ∧
      ∀ (σ : Type) (write_u64 : Nat → σ → σ) (hasher : σ),
        ExistsItem.hashImpl write_u64 a hasher = write_u64 a.hashed_key hasher := by
  intro K a b
  exact ⟨eqImpl_iff a b, fun σ w h => rfl⟩

/-- C10: `get` returns a value exactly when `contains` returns true:
both reduce the key to the same digest under the same hash state. -/
theorem get_contains_agree {K V : Type} [RustHash K] (m : ExistsMap K V)
    (k : K) : (∃ v, m.get k = some v) ↔ m.contains k = true := by
  have h : m.contains k = (m.get k).isSome := rfl
  rw [h]
  cases m.get k <;> simp

/-- C3: when `remove(k)` returns `Some(v)` on a map whose table is
well-formed (no duplicate digests, as for a real `HashMap`), a
subsequent `get(k)` returns `None`, `contains(k)` returns `false`, and
a second `remove(k)` returns `None`. -/
theorem remove_destructive {K V : Type} [RustHash K] (m : ExistsMap K V)
    (k : K) (v : V) (hwf : TableWF m.map) (hrem : (m.remove k).1 = some v) :
    (m.remove k).2.get k = none ∧
    (m.remove k).2.contains k = false ∧
    ((m.remove k).2.remove k).1 = none := by
  have hget : (m.remove k).2.get k = none :=
    tableGet_remove_self m.map ⟨hashOne m.state k⟩ ⟨hashOne m.state k⟩ hwf rfl
  refine ⟨hget, ?_, ?_⟩
  · have hc : (m.remove k).2.contains k = ((m.remove k).2.get k).isSome := rfl
    rw [hc, hget]
    rfl
  · have h3 : ((m.remove k).2.remove k).1 =
        tableGet (tableRemove m.map ⟨hashOne m.state k⟩).2 ⟨hashOne m.state k⟩ :=
      tableRemove_fst _ _
    rw [h3]
    exact hget

/-- A concrete one-entry map for the C3 witness. -/
def w3map : ExistsMap Nat Nat := ((ExistsMap.fresh headState).insert 1 10).2

/-- Witness for C3: removing key 1 from a map holding `1 ↦ 10` returns
`Some 10`, after which `get`, `contains` and a second `remove` all
report absence. -/
theorem remove_destructive_witness :
    TableWF w3map.map ∧ (w3map.remove 1).1 = some 10 ∧
    ((w3map.remove 1).2.get 1 = none ∧
      (w3map.remove 1).2.contains 1 = false ∧
      ((w3map.remove 1).2.remove 1).1 = none) :=
  ⟨by decide, by decide, remove_destructive w3map 1 10 (by decide) (by decide)⟩

/-- C5: a key whose digest differs from the digest of every key ever
inserted along a trace of operations from a fresh map (in particular,
any key on an empty map) is reported absent: `get` returns `None`,
`contains` returns `false`, and `remove` returns `None` — all total
functions, so a lookup or removal miss is an absent `Option`, never a
panic. -/
theorem miss_absent {K V : Type} [RustHash K] (st : HashState)
    (ops : List (Op K V)) (k : K)
    (h : ∀ k' v, Op.insert k' v ∈ ops → hashOne st k' ≠ hashOne st k) :
    ((ExistsMap.fresh st : ExistsMap K V).runOps ops).get k = none ∧
    ((ExistsMap.fresh st : ExistsMap K V).runOps ops).contains k = false ∧
    (((ExistsMap.fresh st : ExistsMap K V).runOps ops).remove k).1 = none := by
  have hnone : tableGet ((ExistsMap.fresh st : ExistsMap K V).runOps ops).map
      ⟨hashOne st k⟩ = none := by
    refine tableGet_eq_none_of_forall _ _ fun e he => ?_
    rcases mem_runOps ops (ExistsMap.fresh st) e he with h' | h'
    · simp [ExistsMap.fresh] at h'
    · obtain ⟨k', v, hk, hd, _⟩ := h'
      rw [hd]
      exact h k' v hk
  have hget : ((ExistsMap.fresh st : ExistsMap K V).runOps ops).get k = none := by
    rw [get_eq_tableGet, runOps_state]
    exact hnone
  refine ⟨hget, ?_, ?_⟩
  · have hc : ((ExistsMap.fresh st : ExistsMap K V).runOps ops).contains k =
        (((ExistsMap.fresh st : ExistsMap K V).runOps ops).get k).isSome := rfl
    rw [hc, hget]
    rfl
  · have hr : (((ExistsMap.fresh st : ExistsMap K V).runOps ops).remove k).1 =
        tableGet ((ExistsMap.fresh st : ExistsMap K V).runOps ops).map
          ⟨hashOne ((ExistsMap.fresh st : ExistsMap K V).runOps ops).state k⟩ :=
      tableRemove_fst _ _
    rw [hr, runOps_state]
    exact hnone

/-- A concrete trace for the C5 witness: insert key 1, then remove it. -/
def w5ops : List (Op Nat Nat) := [Op.insert 1 10, Op.remove 1]

/-- Witness for C5: along the trace `insert 1 10; remove 1` the key 3
was never inserted (distinct digest), so `get 3`, `contains 3` and
`remove 3` all report absence. -/
theorem miss_absent_witness :
    (∀ k' v, Op.insert k' v ∈ w5ops →
      hashOne headState k' ≠ hashOne headState (3 : Nat)) ∧
    (((ExistsMap.fresh headState : ExistsMap Nat Nat).runOps w5ops).get 3 = none ∧
      ((ExistsMap.fresh headState : ExistsMap Nat Nat).runOps w5ops).contains 3 = false ∧
      (((ExistsMap.fresh headState : ExistsMap Nat Nat).runOps w5ops).remove 3).1 = none) := by
  have hp : ∀ k' v, Op.insert k' v ∈ w5ops →
      hashOne headState k' ≠ hashOne headState (3 : Nat) := by
    intro k' v hkv
    simp only [w5ops, List.mem_cons, List.not_mem_nil, or_false] at hkv
    rcases hkv with hkv | hkv
    · obtain ⟨h1, h2⟩ := Op.insert.inj hkv
      subst h1
      decide
    · cases hkv
  exact ⟨hp, miss_absent headState w5ops 3 hp⟩

theorem tableGet_insertAll_ne {K V : Type} [RustHash K] (pairs : List (K × V))
    (m : ExistsMap K V) (d : Nat)
    (h : ∀ p ∈ pairs, hashOne m.state p.1 ≠ d) :
    tableGet (m.insertAll pairs).map ⟨d⟩ = tableGet m.map ⟨d⟩ := by
  induction pairs generalizing m with
  | nil => rfl
  | cons p ps ih =>
      have hstep : tableGet (ExistsMap.insertAll (m.insert p.1 p.2).2 ps).map ⟨d⟩
          = tableGet (m.insert p.1 p.2).2.map ⟨d⟩ :=
        ih _ fun q hq => h q (List.mem_cons_of_mem _ hq)
      have h2 : tableGet (m.insert p.1 p.2).2.map ⟨d⟩ = tableGet m.map ⟨d⟩ :=
        tableGet_insert_ne m.map ⟨hashOne m.state p.1⟩ ⟨d⟩ p.2
          (h p (List.mem_cons_self _ _)).symm
      exact hstep.trans h2

theorem get_insertAll_of_pairwise {K V : Type} [RustHash K]
    (pairs : List (K × V)) (m : ExistsMap K V)
    (hdist : pairs.Pairwise
      (fun p q => hashOne m.state p.1 ≠ hashOne m.state q.1)) :
    ∀ p ∈ pairs, (m.insertAll pairs).get p.1 = some p.2 := by
  induction pairs generalizing m with
  | nil => intro p hp; cases hp
  | cons q ps ih =>
      rw [List.pairwise_cons] at hdist
      obtain ⟨hq, hps⟩ := hdist
      intro p hp
      rcases List.mem_cons.mp hp with rfl | hp'
      · have h1 : (m.insertAll (p :: ps)).get p.1 =
            tableGet (ExistsMap.insertAll (m.insert p.1 p.2).2 ps).map
              ⟨hashOne (ExistsMap.insertAll (m.insert p.1 p.2).2 ps).state p.1⟩ :=
          rfl
        rw [h1, insertAll_state]
        exact (tableGet_insertAll_ne ps (m.insert p.1 p.2).2
            (hashOne m.state p.1) fun r hr => (hq r hr).symm).trans
          (tableGet_insert_self m.map ⟨hashOne m.state p.1⟩
            ⟨hashOne m.state p.1⟩ p.2 rfl)
      · exact ih (m.insert q.1 q.2).2 hps p hp'

/-- C1: inserting a sequence of pairs whose keys have pairwise distinct
digests under the map's hash state into a fresh map makes `get(kᵢ)`
return `Some(vᵢ)` for every pair of the sequence. -/
theorem insert_get_roundtrip {K V : Type} [RustHash K] (st : HashState)
    (pairs : List (K × V))
    (hdist : pairs.Pairwise (fun p q => hashOne st p.1 ≠ hashOne st q.1)) :
    ∀ p ∈ pairs,
      ((ExistsMap.fresh st : ExistsMap K V).insertAll pairs).get p.1 = some p.2 :=
  get_insertAll_of_pairwise pairs (ExistsMap.fresh st) hdist

/-- Concrete pairs for the C1 witness: digests are the keys themselves
under `headState`, hence pairwise distinct. -/
def w1pairs : List (Nat × Nat) := [(1, 10), (2, 20), (3, 30)]

/-- Witness for C1: after inserting `1 ↦ 10, 2 ↦ 20, 3 ↦ 30` into a
fresh map, `get` returns the matching value for every pair. -/
theorem insert_get_roundtrip_witness :
    w1pairs.Pairwise
      (fun p q => hashOne headState p.1 ≠ hashOne headState q.1) ∧
    ((2 : Nat), (20 : Nat)) ∈ w1pairs ∧
    ((ExistsMap.fresh headState : ExistsMap Nat Nat).insertAll w1pairs).get
      2 = some 20 :=
  ⟨by decide, by decide,
    insert_get_roundtrip headState w1pairs (by decide) (2, 20) (by decide)⟩

/-- C8: in every state reachable from a fresh map by a sequence of
insert and remove operations, (a) every entry's surrogate key equals
the digest the hash state assigned to the key of the insert that
created it (with that insert's value), and (b) the structure retains
nothing of the original keys beyond their digests: traces whose keys
agree digest-wise produce identical states. -/
theorem surrogate_invariant {K V : Type} [RustHash K] (st : HashState) :
    (∀ (ops : List (Op K V)) (e : ExistsItem K × V),
        e ∈ ((ExistsMap.fresh st : ExistsMap K V).runOps ops).map →
        ∃ k v, Op.insert k v ∈ ops ∧
          e.1.hashed_key = hashOne st k ∧ e.2 = v) ∧
    (∀ ops ops' : List (Op K V), List.Forall₂ (opDigestEq st) ops ops' →
        (ExistsMap.fresh st : ExistsMap K V).runOps ops =
          (ExistsMap.fresh st : ExistsMap K V).runOps ops') := by
  constructor
  · intro ops e he
    rcases mem_runOps ops (ExistsMap.fresh st) e he with h | h
    · cases h
    · exact h
  · intro ops ops' h
    exact runOps_congr st ops ops' h _ rfl

/-- Witness for C8: after `insert 5 7` the single entry's surrogate is
the digest of 5 with value 7; and with a constant (all-colliding) hash
state, inserting key 0 and inserting key 1 produce identical states. -/
theorem surrogate_invariant_witness :
    ((⟨5⟩, 7) ∈ ((ExistsMap.fresh headState : ExistsMap Nat Nat).runOps
        [Op.insert 5 7]).map) ∧
    (∃ k v, Op.insert k v ∈ [Op.insert (5 : Nat) (7 : Nat)] ∧
      (⟨5⟩ : ExistsItem Nat).hashed_key = hashOne headState k ∧
      (7 : Nat) = v) ∧
    List.Forall₂ (opDigestEq constState)
      [Op.insert (0 : Nat) (7 : Nat)] [Op.insert (1 : Nat) (7 : Nat)] ∧
    (ExistsMap.fresh constState : ExistsMap Nat Nat).runOps [Op.insert 0 7] =
      (ExistsMap.fresh constState : ExistsMap Nat Nat).runOps
        [Op.insert 1 7] := by
  have hmem : ((⟨5⟩ : ExistsItem Nat), (7 : Nat)) ∈
      ((ExistsMap.fresh headState : ExistsMap Nat Nat).runOps
        [Op.insert 5 7]).map := by decide
  have hfa : List.Forall₂ (opDigestEq constState)
      [Op.insert (0 : Nat) (7 : Nat)] [Op.insert (1 : Nat) (7 : Nat)] :=
    List.Forall₂.cons ⟨rfl, rfl⟩ List.Forall₂.nil
  exact ⟨hmem,
    (surrogate_invariant headState).1 [Op.insert 5 7] (⟨5⟩, 7) hmem,
    hfa,
    (surrogate_invariant constState).2 _ _ hfa⟩
